import Mathlib

/-!
Verification development for the Moody content-based recommendation service
(`src/Moody/content_based_service.py`).

Modelling conventions (shallow embedding):

* A pandas `DataFrame` of candidate tracks is modelled by `DF`: a list of
  columns that are present plus the list of rows in retrieval order.
* A row carries its pandas index label (`idx`), the identifier and display
  columns, the mood-feature columns as an association list (`none` models a
  `NaN` cell of a present column), and its similarity score.
* Similarity scores (source lines 171-179) are produced by floating-point
  cosine similarity against the user centroids; the embedding abstracts the
  score of each row as a rational number carried on the row, and every
  theorem quantifies over all score assignments.
* `Series.sort_values(ascending=False)` (pandas) computes a *stable
  ascending* argsort and then reverses the resulting indexer
  (`pandas.core.sorting.nargsort`: `indexer = indexer[::-1]`); numpy's
  `kind='quicksort'` resolves to a stable insertion sort on the small
  arrays used in the concrete inputs below.  The embedding therefore models
  the descending sort as a stable ascending merge sort followed by
  `reverse`; on ties this is exact for the stable regime and the claims
  either do not depend on tie order or are settled on inputs inside that
  regime.
* `fuzz.ratio` (external library `thefuzz`) and `normalize_name` (a
  regex-driven source function) are abstracted as function parameters; the
  theorems about deduplication hold for every instantiation, in particular
  for the real ones.  `get_artist_key` is modelled concretely since it only
  splits, trims, lowercases and sorts.
-/

/-- One candidate row of the DataFrame handed to `mood_aware_filter`.
`idx` is the pandas index label, `feats` the mood-feature columns
(`none` models a NaN cell), `score` the similarity score of the row. -/
structure Row where
  idx : Nat
  track_id : String
  track_name : String
  artists : String
  feats : List (String × Option ℚ)
  score : ℚ
deriving DecidableEq, Repr

/-- A DataFrame of candidate tracks: the set of non-embedding columns
present, whether any `emb_*` column is present, and the rows in retrieval
order. -/
structure DF where
  cols : List String
  hasEmb : Bool
  rows : List Row
deriving DecidableEq, Repr

/-- Value of a mood-feature column in a row; `none` models NaN. -/
def featVal (r : Row) (f : String) : Option ℚ :=
  match r.feats.lookup f with
  | some v => v
  | none => none

/-- Source line 209: `(feature_values >= min) & (feature_values <= max) &
(~feature_values.isna())` evaluated at one row.  Bounds are inclusive and a
NaN cell fails. -/
def featMask (f : String) (lo hi : ℚ) (r : Row) : Bool :=
  match featVal r f with
  | some v => decide (lo ≤ v) && decide (v ≤ hi)
  | none => false

/-- A mood-filter specification: ordered feature names with optional
`min`/`max` bounds (`mood_filters` is a Python dict `{feature: {min, max}}`;
a missing key of the inner dict is `none`). -/
abbrev MoodFilters := List (String × Option ℚ × Option ℚ)

/-- Source line 192: `valid_filter_keys = [key for key in filter_order if key
in tracks_df.columns]`, kept together with the range of each key. -/
def validEntries (cols : List String) (mf : MoodFilters) : MoodFilters :=
  mf.filter (fun p => decide (p.1 ∈ cols))

/-- Selection of a complete filter entry: one carrying both a `min` and a
`max` (source line 204 skips the rest). -/
def pickAF (p : String × Option ℚ × Option ℚ) : Option (String × ℚ × ℚ) :=
  match p with
  | (f, some lo, some hi) => some (f, lo, hi)
  | (_, none, _) => none
  | (_, some _, none) => none

/-- Filters that actually produce a stage: present as a column and carrying
both a `min` and a `max` (source lines 202-211; entries with a missing bound
are skipped and contribute no stage). -/
def appliedFilters (cols : List String) (mf : MoodFilters) : List (String × ℚ × ℚ) :=
  (validEntries cols mf).filterMap pickAF

/-- Cumulative stage masks over the already-validated filter entries,
mirroring the loop of source lines 202-213: a skipped entry leaves the
cumulative mask unchanged and appends no stage; a complete entry conjoins
its range test onto the cumulative mask and appends the result. -/
def stageGoLit (cum : Row → Bool) : MoodFilters → List (Row → Bool)
  | [] => []
  | (f, some lo, some hi) :: rest =>
    (fun r => cum r && featMask f lo hi r) ::
      stageGoLit (fun r => cum r && featMask f lo hi r) rest
  | (_, none, _) :: rest => stageGoLit cum rest
  | (_, some _, none) :: rest => stageGoLit cum rest

/-- Cumulative stage masks over the applied (complete) filters only. -/
def stageGo (cum : Row → Bool) : List (String × ℚ × ℚ) → List (Row → Bool)
  | [] => []
  | (f, lo, hi) :: rest =>
    let c := fun r => cum r && featMask f lo hi r
    c :: stageGo c rest

/-- Stage masks of a DataFrame and a mood-filter specification. -/
def stageMasks (cols : List String) (mf : MoodFilters) : List (Row → Bool) :=
  stageGoLit (fun _ => true) (validEntries cols mf)

/-- Stable ascending sort by score, the ascending argsort underlying
`Series.sort_values`.  A stable ascending sort is unique as a function of
the input list, so the choice of algorithm (insertion sort here, matching
numpy's small-array regime) is immaterial. -/
def sortAsc (l : List Row) : List Row :=
  l.insertionSort (fun a b => a.score ≤ b.score)

/-- Model of `track_scores_series.sort_values(ascending=False)` (source
lines 188, 227, 237): pandas performs a stable ascending argsort and
reverses the indexer. -/
def sortDesc (l : List Row) : List Row :=
  (sortAsc l).reverse

/-- Tier contents in ascending stage order, mirroring source lines 218-222:
stage `i` contributes the rows accepted by its cumulative mask but not by
the next (stricter) one; the last stage has no stricter stage, so it
contributes its whole accepted set.  The Python code materialises each tier
as a set of index labels whose iteration order is unspecified; since every
tier is sorted by score immediately afterwards, the embedding keeps the
rows in retrieval order here. -/
def tiersIn (rows : List Row) : List (Row → Bool) → List (List Row)
  | [] => []
  | [m] => [rows.filter m]
  | m :: m' :: rest =>
    rows.filter (fun r => m r && !(m' r)) :: tiersIn rows (m' :: rest)

/-- Appending one sorted tier while skipping labels already added (source
lines 229-232: the `added_indices_set_tiered` membership test). -/
def addNew (acc : List Row) (t : List Row) : List Row :=
  acc ++ t.filter (fun r => !(decide (r.idx ∈ acc.map Row.idx)))

/-- Priority list produced by the tiered walk (source lines 215-242): tiers
are appended from the most-constrained stage down, then the remaining rows
follow in descending-score order, skipping labels already added by a tier. -/
def tieredPotential (rows : List Row) (stages : List (Row → Bool)) : List Row :=
  let tiers := ((tiersIn rows stages).map sortDesc).reverse
  let withTiers := tiers.foldl addNew []
  withTiers ++ (sortDesc rows).filter
    (fun r => !(decide (r.idx ∈ withTiers.map Row.idx)))

/-- Priority-ordered candidate list before deduplication
(`potential_indices`, source lines 182-242): with no mood filters, or none
of the requested features present as columns, all rows sorted by descending
score; otherwise the tiered walk over the cumulative stages. -/
def potentialRows (df : DF) (mf : MoodFilters) : List Row :=
  if mf.isEmpty then sortDesc df.rows
  else if (validEntries df.cols mf).isEmpty then sortDesc df.rows
  else tieredPotential df.rows (stageMasks df.cols mf)

/-- Source constant `FINAL_RECOMMENDATION_COUNT` (line 145). -/
def FINAL_RECOMMENDATION_COUNT : Nat := 100

/-- Source constant `MIN_TRACKS_THRESHOLD` (line 146); declared for the
drop-one relaxation policy, unused by the tiered path. -/
def MIN_TRACKS_THRESHOLD : Nat := 30

/-- Source constant `DEDUPLICATION_SIMILARITY_THRESHOLD` (line 147). -/
def DEDUPLICATION_SIMILARITY_THRESHOLD : Nat := 90

/-- Model of `get_artist_key` (source lines 101-120) on the string case:
split on `';'`, keep the parts whose trimmed form is non-empty, trim and
lowercase them, and sort (Python's `sorted` on strings is the
lexicographic order).  The deduplication theorems quantify over an
arbitrary key function `artistKey`, which covers this concrete one; the
quantification is needed because Lean's `String` primitives (`splitOn`,
`trim`) do not reduce inside the kernel, so concrete witnesses instantiate
simpler key functions. -/
def get_artist_key (artists : String) : List String :=
  ((artists.splitOn ";").filterMap (fun a =>
    let s := a.trim
    if s.isEmpty then none else some s.toLower)).insertionSort (· ≤ ·)

/-- Duplicate test of source lines 275-283: some already-accepted row has
the same artist key and a fuzzy similarity of at least the threshold
between the normalized names (the current row is the first `fuzz.ratio`
argument, as in the source). -/
def isDup (normName : String → String) (ratio : String → String → Nat) (artistKey : String → List String)
    (acc : List Row) (c : Row) : Bool :=
  acc.any (fun e =>
    decide (artistKey e.artists = artistKey c.artists) &&
    decide (DEDUPLICATION_SIMILARITY_THRESHOLD ≤
      ratio (normName c.track_name) (normName e.track_name)))

/-- Deduplication loop of source lines 254-298 with the quota check of line
258: stop once the accepted list reaches the quota, skip duplicates,
otherwise accept. -/
def dedupGo (normName : String → String) (ratio : String → String → Nat) (artistKey : String → List String)
    (acc : List Row) : List Row → List Row
  | [] => acc
  | c :: rest =>
    if FINAL_RECOMMENDATION_COUNT ≤ acc.length then acc
    else if isDup normName ratio artistKey acc c then dedupGo normName ratio artistKey acc rest
    else dedupGo normName ratio artistKey (acc ++ [c]) rest

/-- Quota-bounded deduplication of the priority list. -/
def dedupQuota (normName : String → String) (ratio : String → String → Nat) (artistKey : String → List String)
    (potential : List Row) : List Row :=
  dedupGo normName ratio artistKey [] potential

/-- Deduplication without the quota: the list of all distinct (non-near-
duplicate) rows of the priority list, used to state how many distinct
neighbors survive deduplication. -/
def dedupNoQuotaGo (normName : String → String) (ratio : String → String → Nat) (artistKey : String → List String)
    (acc : List Row) : List Row → List Row
  | [] => acc
  | c :: rest =>
    if isDup normName ratio artistKey acc c then dedupNoQuotaGo normName ratio artistKey acc rest
    else dedupNoQuotaGo normName ratio artistKey (acc ++ [c]) rest

/-- Unbounded variant of the deduplicator. -/
def dedupNoQuota (normName : String → String) (ratio : String → String → Nat) (artistKey : String → List String)
    (potential : List Row) : List Row :=
  dedupNoQuotaGo normName ratio artistKey [] potential

/-- Model of `mood_aware_filter` (source lines 125-310): empty input is
returned as is (line 150); with no embedding columns the result is empty
(line 157); with `track_name` or `artists` missing the first
`FINAL_RECOMMENDATION_COUNT` rows are returned unprocessed (lines 166-168);
otherwise the deduplicated priority list. -/
def mood_aware_filter (normName : String → String)
    (ratio : String → String → Nat) (artistKey : String → List String) (df : DF) (mf : MoodFilters) : List Row :=
  if df.rows.isEmpty then df.rows
  else if !df.hasEmb then []
  else if !(decide ("track_name" ∈ df.cols) && decide ("artists" ∈ df.cols)) then
    df.rows.take FINAL_RECOMMENDATION_COUNT
  else dedupQuota normName ratio artistKey (potentialRows df mf)

/-- Final step of the `/recommend` route (source lines 364-366): keep the
rows whose `track_id` is not among the seed ids found in the catalog, and
return their ids. -/
def recommendFromCandidates (normName : String → String)
    (ratio : String → String → Nat) (artistKey : String → List String) (df : DF) (mf : MoodFilters)
    (matchedSeeds : List String) : List String :=
  ((mood_aware_filter normName ratio artistKey df mf).filter
    (fun r => decide (r.track_id ∉ matchedSeeds))).map Row.track_id

/-- First-seen deduplication of a list of catalog positions, the model of
`list(dict.fromkeys(all_results_indices))` (source line 80): keep the first
occurrence of each value, in first-occurrence order. -/
def dedupFirst : List Nat → List Nat
  | [] => []
  | a :: l => a :: dedupFirst (l.filter (fun x => decide (x ≠ a)))
termination_by l => l.length
decreasing_by
  exact Nat.lt_succ_of_le (List.length_filter_le _ _)

/-- Model of `find_similar_tracks` (source lines 46-83).  The per-centroid
nearest-neighbor lists returned by `kneighbors` are floating-point driven
and taken as input; the function flattens them in centroid order,
deduplicates preserving first-seen order and truncates to the hard cap of
1000 positions. -/
def find_similar_tracks (neighborLists : List (List Nat)) : List Nat :=
  (dedupFirst neighborLists.flatten).take 1000

/-- One catalog track as used by `get_user_embeddings`: its id and its
embedding vector. -/
structure CatTrack where
  track_id : String
  embedding : List ℚ
deriving DecidableEq, Repr

/-- Componentwise arithmetic mean of a list of vectors, the model of
`np.mean(embeddings, axis=0)`. -/
def meanVec (vs : List (List ℚ)) : List ℚ :=
  match vs with
  | [] => []
  | v :: _ =>
    (List.range v.length).map (fun i =>
      ((vs.map (fun w => w.getD i 0)).sum) / (vs.length : ℚ))

/-- Model of `get_user_embeddings` (source lines 21-42).  The KMeans
clustering of scikit-learn is floating-point and randomized behind a fixed
seed; it is abstracted as the function parameter `kmeans`, whose library
contract (`cluster_centers_` has `n_clusters` rows) becomes a hypothesis of
the theorems.  Matching rows keep catalog order (`isin` filtering). -/
def get_user_embeddings (kmeans : Nat → List (List ℚ) → List (List ℚ))
    (catalog : List CatTrack) (user_track_ids : List String)
    (max_clusters : Nat := 5) : Option (List (List ℚ)) × List String :=
  let valid := catalog.filter (fun t => decide (t.track_id ∈ user_track_ids))
  if valid.isEmpty then (none, [])
  else
    let embeddings := valid.map CatTrack.embedding
    let n_clusters := min max_clusters embeddings.length
    let centroids :=
      if 1 < n_clusters then kmeans n_clusters embeddings
      else [meanVec embeddings]
    (some centroids, valid.map CatTrack.track_id)

/-- Rows satisfying every filter of a list. -/
def satAll (active : List (String × ℚ × ℚ)) (r : Row) : Bool :=
  active.all (fun af => featMask af.1 af.2.1 af.2.2 r)

/-- Number of candidates satisfying one filter alone (the satisfier count
of the drop-one relaxation policy). -/
def satisfierCount (rows : List Row) (af : String × ℚ × ℚ) : Nat :=
  (rows.filter (fun r => featMask af.1 af.2.1 af.2.2 r)).length

/-- Removal of the first element attaining the minimum of `f`: the first
element that is `≤` every later one is dropped, every earlier element is
kept. -/
def eraseMinBy (f : (String × ℚ × ℚ) → Nat) :
    List (String × ℚ × ℚ) → List (String × ℚ × ℚ)
  | [] => []
  | a :: rest =>
    if rest.all (fun b => decide (f a ≤ f b)) then rest
    else a :: eraseMinBy f rest

/-- Modelled from the spec: the drop-one-filter relaxation policy.  The
source declares only its threshold constant `MIN_TRACKS_THRESHOLD = 30`
(content_based_service.py line 146, "For tiered filtering logic (less
relevant now?)"); the procedure itself is absent from `src/`, so it is
modelled from §4.4 of the spec: at each round compute per-filter satisfier
counts, drop the filter with the fewest satisfiers and retry, until either
the candidates satisfying all active filters reach the minimum-count
threshold or no filters remain, in which case the unfiltered candidate list
is returned (the quota cuts its head elsewhere).  The loop is bounded by
the number of active filters; `fuel` counts the remaining rounds and always
suffices, since each round removes exactly one filter. -/
def dropOneGo (rows : List Row) : Nat → List (String × ℚ × ℚ) → List Row
  | _, [] => rows
  | 0, _ :: _ => rows
  | fuel + 1, a :: rest =>
    let selected := rows.filter (satAll (a :: rest))
    if MIN_TRACKS_THRESHOLD ≤ selected.length then selected
    else dropOneGo rows fuel (eraseMinBy (satisfierCount rows) (a :: rest))

/-- Modelled from the spec: entry point of the drop-one-filter relaxation
policy (see `dropOneGo`). -/
def dropOneRelax (rows : List Row) (active : List (String × ℚ × ℚ)) : List Row :=
  dropOneGo rows active.length active

/-! ### Concrete inputs used by witnesses and counterexamples -/

/-- Identity title normalization, a concrete instantiation of the
abstracted `normalize_name`. -/
def exNorm : String → String := fun s => s

/-- Constant-zero fuzzy similarity, a concrete instantiation of the
abstracted `fuzz.ratio` (no pair is ever near-duplicate). -/
def exRatio : String → String → Nat := fun _ _ => 0

/-- Constant artist key, a concrete kernel-reducible instantiation of the
abstracted `get_artist_key` (every row shares one key). -/
def exKey : String → List String := fun _ => []

/-- Row with a single `energy` feature value. -/
def exRowA : Row :=
  { idx := 0, track_id := "a", track_name := "A", artists := "x",
    feats := [("energy", some (1 : ℚ))], score := 0 }

/-- Row whose `energy` value violates the example filter. -/
def exRowB : Row :=
  { idx := 1, track_id := "b", track_name := "B", artists := "y",
    feats := [("energy", some (2 : ℚ))], score := 1 }

/-- Two-row DataFrame with an `energy` feature column. -/
def exDF1 : DF :=
  { cols := ["track_name", "artists", "energy"], hasEmb := true,
    rows := [exRowA, exRowB] }

/-- Example mood-filter specification with one complete entry. -/
def exMF1 : MoodFilters := [("energy", some (0 : ℚ), some (1 : ℚ))]

/-- First retrieved row of the tie example. -/
def exRow0 : Row :=
  { idx := 0, track_id := "t0", track_name := "N0", artists := "x",
    feats := [], score := 7 }

/-- Second retrieved row of the tie example, with the same score. -/
def exRow1 : Row :=
  { idx := 1, track_id := "t1", track_name := "N1", artists := "y",
    feats := [], score := 7 }

/-- Two-row DataFrame whose rows have equal similarity scores. -/
def exDF6 : DF :=
  { cols := ["track_name", "artists"], hasEmb := true,
    rows := [exRow0, exRow1] }

/-- Row constructor for the quota example: ascending scores, empty artist
string (every row gets the same empty artist key), no near-duplicates
under `exRatio`. -/
def mkRow4 (i : Nat) : Row :=
  { idx := i, track_id := "t" ++ toString i, track_name := "n" ++ toString i,
    artists := "", feats := [], score := (i : ℚ) }

/-- DataFrame of 101 distinct candidates, one more than the quota. -/
def ex101 : DF :=
  { cols := ["track_name", "artists"], hasEmb := true,
    rows := (List.range 101).map mkRow4 }

/-- DataFrame lacking the `artists` column. -/
def exDF10 : DF :=
  { cols := ["track_name"], hasEmb := true,
    rows := [exRow0, exRow1, exRowA] }

/-- Two-track catalog for the profile-builder witness. -/
def exCatalog : List CatTrack :=
  [{ track_id := "s1", embedding := [1, 3] },
   { track_id := "s2", embedding := [3, 5] },
   { track_id := "s3", embedding := [0, 0] }]

/-- Degenerate clustering function: `k` copies of the mean, satisfying the
scikit-learn shape contract. -/
def exKMeans : Nat → List (List ℚ) → List (List ℚ) :=
  fun k e => List.replicate k (meanVec e)

/-! ### Lemmas about the deduplicator -/

theorem dedupNoQuotaGo_append (normName : String → String)
    (ratio : String → String → Nat) (artistKey : String → List String) :
    ∀ (l acc : List Row), ∃ s, dedupNoQuotaGo normName ratio artistKey acc l = acc ++ s ∧
      s.Sublist l := by
  intro l
  induction l with
  | nil => exact fun acc => ⟨[], by simp [dedupNoQuotaGo], List.nil_sublist _⟩
  | cons c rest ih =>
    intro acc
    by_cases h : isDup normName ratio artistKey acc c = true
    · obtain ⟨s, hs, hsub⟩ := ih acc
      exact ⟨s, by simp [dedupNoQuotaGo, h, hs], hsub.cons c⟩
    · obtain ⟨s, hs, hsub⟩ := ih (acc ++ [c])
      refine ⟨c :: s, ?_, hsub.cons₂ c⟩
      simp [dedupNoQuotaGo, h, hs]

theorem dedupNoQuotaGo_pairwise (normName : String → String)
    (ratio : String → String → Nat) (artistKey : String → List String) :
    ∀ (l acc : List Row),
      acc.Pairwise (fun e c =>
        artistKey e.artists = artistKey c.artists →
        ratio (normName c.track_name) (normName e.track_name) <
          DEDUPLICATION_SIMILARITY_THRESHOLD) →
      (dedupNoQuotaGo normName ratio artistKey acc l).Pairwise (fun e c =>
        artistKey e.artists = artistKey c.artists →
        ratio (normName c.track_name) (normName e.track_name) <
          DEDUPLICATION_SIMILARITY_THRESHOLD) := by
  intro l
  induction l with
  | nil => intro acc hacc; simpa [dedupNoQuotaGo] using hacc
  | cons c rest ih =>
    intro acc hacc
    by_cases h : isDup normName ratio artistKey acc c = true
    · simpa [dedupNoQuotaGo, h] using ih acc hacc
    · have hnew : ∀ e ∈ acc,
          artistKey e.artists = artistKey c.artists →
          ratio (normName c.track_name) (normName e.track_name) <
            DEDUPLICATION_SIMILARITY_THRESHOLD := by
        intro e he hkey
        have h' : isDup normName ratio artistKey acc c = false := Bool.eq_false_iff.mpr h
        simp only [isDup] at h'
        have := List.any_eq_false.mp h' e he
        simp only [Bool.and_eq_true, decide_eq_true_eq, not_and] at this
        exact Nat.lt_of_not_le (this hkey)
      have hacc' : (acc ++ [c]).Pairwise (fun e c =>
          artistKey e.artists = artistKey c.artists →
          ratio (normName c.track_name) (normName e.track_name) <
            DEDUPLICATION_SIMILARITY_THRESHOLD) := by
        refine List.pairwise_append.mpr ⟨hacc, List.pairwise_singleton _ _, ?_⟩
        intro a ha b hb
        rw [List.mem_singleton.mp hb]
        exact hnew a ha
      simpa [dedupNoQuotaGo, h] using ih (acc ++ [c]) hacc'

theorem dedupGo_eq_take (normName : String → String)
    (ratio : String → String → Nat) (artistKey : String → List String) :
    ∀ (l acc : List Row), acc.length ≤ FINAL_RECOMMENDATION_COUNT →
      dedupGo normName ratio artistKey acc l =
        (dedupNoQuotaGo normName ratio artistKey acc l).take FINAL_RECOMMENDATION_COUNT := by
  intro l
  induction l with
  | nil =>
    intro acc hacc
    simp [dedupGo, dedupNoQuotaGo, List.take_of_length_le hacc]
  | cons c rest ih =>
    intro acc hacc
    by_cases hq : FINAL_RECOMMENDATION_COUNT ≤ acc.length
    · have hlen : acc.length = FINAL_RECOMMENDATION_COUNT := Nat.le_antisymm hacc hq
      obtain ⟨s, hs, -⟩ := dedupNoQuotaGo_append normName ratio artistKey (c :: rest) acc
      rw [hs]
      simp [dedupGo, hq, List.take_append_eq_append_take, hlen,
        List.take_of_length_le (Nat.le_refl _)]
    · by_cases h : isDup normName ratio artistKey acc c = true
      · simpa [dedupGo, hq, dedupNoQuotaGo, h] using ih acc hacc
      · have : (acc ++ [c]).length ≤ FINAL_RECOMMENDATION_COUNT := by
          simp only [List.length_append, List.length_singleton]
          exact Nat.succ_le_of_lt (Nat.lt_of_not_le hq)
        simpa [dedupGo, hq, dedupNoQuotaGo, h] using ih (acc ++ [c]) this

theorem dedupQuota_eq_take (normName : String → String)
    (ratio : String → String → Nat) (artistKey : String → List String) (potential : List Row) :
    dedupQuota normName ratio artistKey potential =
      (dedupNoQuota normName ratio artistKey potential).take FINAL_RECOMMENDATION_COUNT :=
  dedupGo_eq_take normName ratio artistKey potential [] (Nat.zero_le _)

/-- C3: the deduplicator's output has length at most the quota of 100,
preserves the relative order of the input (it is a sublist of it), and no
later accepted row shares its artist key with an earlier accepted row while
their normalized titles reach fuzzy similarity 90; quantified over every
title normalization and fuzzy-ratio function, which covers the concrete
`normalize_name` and `fuzz.ratio`. -/
theorem moody_c3 (normName : String → String) (ratio : String → String → Nat) (artistKey : String → List String)
    (potential : List Row) :
    (dedupQuota normName ratio artistKey potential).length ≤ FINAL_RECOMMENDATION_COUNT ∧
    (dedupQuota normName ratio artistKey potential).Sublist potential ∧
    (dedupQuota normName ratio artistKey potential).Pairwise (fun e c =>
      artistKey e.artists = artistKey c.artists →
      ratio (normName c.track_name) (normName e.track_name) <
        DEDUPLICATION_SIMILARITY_THRESHOLD) := by
  obtain ⟨s, hs, hsub⟩ := dedupNoQuotaGo_append normName ratio artistKey potential []
  have hnq : dedupNoQuota normName ratio artistKey potential = s := by
    simpa [dedupNoQuota] using hs
  refine ⟨?_, ?_, ?_⟩
  · rw [dedupQuota_eq_take]
    simp [List.length_take]
  · rw [dedupQuota_eq_take, hnq]
    exact (List.take_sublist _ _).trans hsub
  · rw [dedupQuota_eq_take]
    exact List.Pairwise.sublist (List.take_sublist _ _)
      (by simpa [dedupNoQuota] using
        dedupNoQuotaGo_pairwise normName ratio artistKey potential [] List.Pairwise.nil)

/-- C10: when the candidate DataFrame carries embedding columns but lacks
`track_name` or `artists`, `mood_aware_filter` returns the first 100 rows
in retrieval order, with no filtering, reordering or deduplication. -/
theorem moody_c10 (normName : String → String) (ratio : String → String → Nat) (artistKey : String → List String)
    (df : DF) (mf : MoodFilters) (hEmb : df.hasEmb = true)
    (hMiss : "track_name" ∉ df.cols ∨ "artists" ∉ df.cols) :
    mood_aware_filter normName ratio artistKey df mf =
      df.rows.take FINAL_RECOMMENDATION_COUNT := by
  by_cases hrows : df.rows.isEmpty
  · have h0 : df.rows = [] := List.isEmpty_iff.mp hrows
    simp [mood_aware_filter, hrows, h0]
  · rcases hMiss with h | h
    · simp [mood_aware_filter, hrows, hEmb, h]
    · by_cases h' : "track_name" ∈ df.cols
      · simp [mood_aware_filter, hrows, hEmb, h, h']
      · simp [mood_aware_filter, hrows, hEmb, h, h']

/-- C10 witness: a concrete DataFrame with embeddings but no `artists`
column is cut to its first 100 rows unchanged. -/
theorem moody_c10_witness :
    exDF10.hasEmb = true ∧ ("track_name" ∉ exDF10.cols ∨ "artists" ∉ exDF10.cols) ∧
      mood_aware_filter exNorm exRatio exKey exDF10 [] =
        exDF10.rows.take FINAL_RECOMMENDATION_COUNT :=
  ⟨rfl, Or.inr (by decide),
    moody_c10 exNorm exRatio exKey exDF10 [] rfl (Or.inr (by decide))⟩

/-! ### Lemmas about first-seen deduplication (`find_similar_tracks`) -/

theorem dedupFirst_mem : ∀ (l : List Nat) (x : Nat), x ∈ dedupFirst l ↔ x ∈ l := by
  intro l
  induction l using dedupFirst.induct with
  | case1 => simp [dedupFirst]
  | case2 a t ih =>
    intro x
    rw [dedupFirst]
    by_cases hx : x = a
    · simp [hx]
    · simp only [List.mem_cons, hx, false_or]
      rw [ih x]
      simp [List.mem_filter, hx]

theorem dedupFirst_nodup : ∀ (l : List Nat), (dedupFirst l).Nodup := by
  intro l
  induction l using dedupFirst.induct with
  | case1 => simp [dedupFirst]
  | case2 a t ih =>
    rw [dedupFirst]
    refine List.nodup_cons.mpr ⟨?_, ih⟩
    intro hmem
    have := (dedupFirst_mem _ a).mp hmem
    simp [List.mem_filter] at this

theorem indexOf_filter_lt_of_lt (p : Nat → Bool) :
    ∀ (l : List Nat) (b c : Nat), b ∈ l.filter p → c ∈ l.filter p →
      (l.filter p).indexOf b < (l.filter p).indexOf c →
      l.indexOf b < l.indexOf c := by
  intro l
  induction l with
  | nil => intro b c hb; simp at hb
  | cons x t ih =>
    intro b c hb hc h
    by_cases hpx : p x = true
    · rw [List.filter_cons_of_pos hpx] at hb hc h
      by_cases hbx : b = x
      · subst hbx
        have hcb : c ≠ b := by
          intro hcb
          rw [hcb, List.indexOf_cons_self] at h
          exact Nat.not_lt_zero _ h
        rw [List.indexOf_cons_self]
        rw [List.indexOf_cons_ne _ (fun hcx => hcb hcx.symm)]
        exact Nat.succ_pos _
      · have hcx : c ≠ x := by
          intro hcx
          rw [List.indexOf_cons_ne _ (fun hbx' => hbx hbx'.symm), hcx,
            List.indexOf_cons_self] at h
          exact Nat.not_lt_zero _ h
        rw [List.indexOf_cons_ne _ (fun hbx' => hbx hbx'.symm),
          List.indexOf_cons_ne _ (fun hcx' => hcx hcx'.symm)] at h
        have hb' : b ∈ t.filter p := by
          rcases List.mem_cons.mp hb with h' | h'
          · exact absurd h' hbx
          · exact h'
        have hc' : c ∈ t.filter p := by
          rcases List.mem_cons.mp hc with h' | h'
          · exact absurd h' hcx
          · exact h'
        rw [List.indexOf_cons_ne _ (fun hbx' => hbx hbx'.symm),
          List.indexOf_cons_ne _ (fun hcx' => hcx hcx'.symm)]
        exact Nat.succ_lt_succ (ih b c hb' hc' (Nat.lt_of_succ_lt_succ h))
    · rw [List.filter_cons_of_neg hpx] at hb hc h
      have hbx : b ≠ x := by
        intro hbx
        have := List.of_mem_filter hb
        rw [hbx] at this
        exact hpx this
      have hcx : c ≠ x := by
        intro hcx
        have := List.of_mem_filter hc
        rw [hcx] at this
        exact hpx this
      rw [List.indexOf_cons_ne _ (fun h' => hbx h'.symm),
        List.indexOf_cons_ne _ (fun h' => hcx h'.symm)]
      exact Nat.succ_lt_succ (ih b c hb hc h)

theorem dedupFirst_pairwise_indexOf :
    ∀ (l : List Nat), (dedupFirst l).Pairwise (fun a b =>
      l.indexOf a < l.indexOf b) := by
  intro l
  induction l using dedupFirst.induct with
  | case1 => simp [dedupFirst]
  | case2 a t ih =>
    rw [dedupFirst]
    refine List.pairwise_cons.mpr ⟨?_, ?_⟩
    · intro b hb
      have hbt : b ∈ t.filter (fun x => decide (x ≠ a)) :=
        (dedupFirst_mem _ b).mp hb
      have hba : b ≠ a := by
        have := List.of_mem_filter hbt
        simpa using this
      rw [List.indexOf_cons_self, List.indexOf_cons_ne _ (fun h' => hba h'.symm)]
      exact Nat.succ_pos _
    · refine List.Pairwise.imp_of_mem ?_ ih
      intro b c hb hc h
      have hbt : b ∈ t.filter (fun x => decide (x ≠ a)) :=
        (dedupFirst_mem _ b).mp hb
      have hct : c ∈ t.filter (fun x => decide (x ≠ a)) :=
        (dedupFirst_mem _ c).mp hc
      have hba : b ≠ a := by simpa using List.of_mem_filter hbt
      have hca : c ≠ a := by simpa using List.of_mem_filter hct
      rw [List.indexOf_cons_ne _ (fun h' => hba h'.symm),
        List.indexOf_cons_ne _ (fun h' => hca h'.symm)]
      exact Nat.succ_lt_succ
        (indexOf_filter_lt_of_lt _ t b c hbt hct h)

/-- C7: the retrieved candidate set contains no duplicate identities, never
exceeds the hard cap of 1000, and is ordered by first occurrence in the
concatenation of the per-centroid neighbor lists taken in centroid order. -/
theorem moody_c7 (neighborLists : List (List Nat)) :
    (find_similar_tracks neighborLists).Nodup ∧
    (find_similar_tracks neighborLists).length ≤ 1000 ∧
    (find_similar_tracks neighborLists).Pairwise (fun a b =>
      neighborLists.flatten.indexOf a < neighborLists.flatten.indexOf b) := by
  refine ⟨?_, ?_, ?_⟩
  · exact List.Nodup.sublist (List.take_sublist _ _) (dedupFirst_nodup _)
  · simp [find_similar_tracks, List.length_take]
  · exact List.Pairwise.sublist (List.take_sublist _ _)
      (dedupFirst_pairwise_indexOf _)

/-! ### Lemmas about the drop-one relaxation policy -/

theorem eraseMinBy_sublist (f : (String × ℚ × ℚ) → Nat) :
    ∀ (l : List (String × ℚ × ℚ)), (eraseMinBy f l).Sublist l := by
  intro l
  induction l with
  | nil => simp [eraseMinBy]
  | cons a rest ih =>
    rw [eraseMinBy]
    by_cases h : rest.all (fun b => decide (f a ≤ f b)) = true
    · simp only [h, if_true]
      exact List.sublist_cons_self a rest
    · simp only [h, if_false]
      exact ih.cons₂ a

theorem eraseMinBy_length (f : (String × ℚ × ℚ) → Nat) :
    ∀ (l : List (String × ℚ × ℚ)), l ≠ [] →
      (eraseMinBy f l).length + 1 = l.length := by
  intro l
  induction l with
  | nil => intro h; exact absurd rfl h
  | cons a rest ih =>
    intro _
    rw [eraseMinBy]
    by_cases h : rest.all (fun b => decide (f a ≤ f b)) = true
    · simp [h]
    · have hrest : rest ≠ [] := by
        intro h0
        rw [h0] at h
        simp at h
      have := ih hrest
      rw [if_neg h]
      simp only [List.length_cons]
      omega

theorem dropOneGo_spec (rows : List Row) :
    ∀ (fuel : Nat) (active : List (String × ℚ × ℚ)), active.length ≤ fuel →
      ∃ F, F.Sublist active ∧
        dropOneGo rows fuel active = rows.filter (satAll F) ∧
        (F = [] ∨ MIN_TRACKS_THRESHOLD ≤ (rows.filter (satAll F)).length) := by
  intro fuel
  induction fuel with
  | zero =>
    intro active hlen
    have h0 : active = [] := List.length_eq_zero.mp (Nat.le_zero.mp hlen)
    subst h0
    refine ⟨[], List.Sublist.refl _, ?_, Or.inl rfl⟩
    rw [dropOneGo]
    exact (List.filter_true rows).symm
  | succ fuel ih =>
    intro active hlen
    cases active with
    | nil =>
      refine ⟨[], List.Sublist.refl _, ?_, Or.inl rfl⟩
      rw [dropOneGo]
      exact (List.filter_true rows).symm
    | cons a rest =>
      by_cases hth : MIN_TRACKS_THRESHOLD ≤ (rows.filter (satAll (a :: rest))).length
      · exact ⟨a :: rest, List.Sublist.refl _, by simp [dropOneGo, hth], Or.inr hth⟩
      · have hne : (a :: rest) ≠ [] := List.cons_ne_nil a rest
        have hb : (eraseMinBy (satisfierCount rows) (a :: rest)).length ≤ fuel := by
          have := eraseMinBy_length (satisfierCount rows) (a :: rest) hne
          simp only [List.length_cons] at hlen this
          omega
        obtain ⟨F, hF, heq, hdisj⟩ := ih _ hb
        exact ⟨F, hF.trans (eraseMinBy_sublist _ _), by simp [dropOneGo, hth, heq],
          hdisj⟩

/-- C5: the drop-one-filter relaxation policy (modelled from the spec, its
code being absent from the source apart from the `MIN_TRACKS_THRESHOLD`
declaration) always terminates in a state where some subset of the given
filters, obtained by successively dropping minimum-satisfier filters,
remains active, the returned candidates are exactly those satisfying every
remaining filter, and either the minimum-count threshold of 30 is met or no
filter remains (in which case the unfiltered candidates are returned). -/
theorem moody_c5 (rows : List Row) (active : List (String × ℚ × ℚ)) :
    ∃ F, F.Sublist active ∧
      dropOneRelax rows active = rows.filter (satAll F) ∧
      (F = [] ∨ MIN_TRACKS_THRESHOLD ≤ (rows.filter (satAll F)).length) :=
  dropOneGo_spec rows active.length active (Nat.le_refl _)

/-! ### Lemmas about the profile builder -/

/-- C8: with at least one catalog match, the profile builder returns
exactly `min 5 matched_count` centroids (5 being the default
`max_clusters`, via the scikit-learn shape contract on the abstracted
KMeans), and with exactly one match the single centroid is the arithmetic
mean of the matched embeddings. -/
theorem moody_c8 (kmeans : Nat → List (List ℚ) → List (List ℚ))
    (catalog : List CatTrack) (ids : List String)
    (hk : ∀ k e, (kmeans k e).length = k)
    (hne : catalog.filter (fun t => decide (t.track_id ∈ ids)) ≠ []) :
    ∃ cs, (get_user_embeddings kmeans catalog ids).1 = some cs ∧
      cs.length = min 5 (catalog.filter (fun t => decide (t.track_id ∈ ids))).length ∧
      ((catalog.filter (fun t => decide (t.track_id ∈ ids))).length = 1 →
        cs = [meanVec ((catalog.filter
          (fun t => decide (t.track_id ∈ ids))).map CatTrack.embedding)]) := by
  have hemp : (catalog.filter (fun t => decide (t.track_id ∈ ids))).isEmpty = false :=
    List.isEmpty_eq_false.mpr hne
  set e := (catalog.filter (fun t => decide (t.track_id ∈ ids))).map
    CatTrack.embedding with he
  by_cases h1 : 1 < min 5 e.length
  · refine ⟨kmeans (min 5 e.length) e, ?_, ?_, ?_⟩
    · simp [get_user_embeddings, hemp, ← he, h1]
    · rw [hk]
      rw [he, List.length_map]
    · intro hlen
      rw [he, List.length_map, hlen] at h1
      simp at h1
  · refine ⟨[meanVec e], ?_, ?_, ?_⟩
    · simp [get_user_embeddings, hemp, ← he, h1]
    · have hpos : 1 ≤ (catalog.filter (fun t => decide (t.track_id ∈ ids))).length :=
        List.length_pos.mpr hne
      rw [he, List.length_map] at h1
      simp only [List.length_singleton]
      omega
    · intro _
      rfl

/-- C8 witness: a one-seed request on a concrete catalog yields exactly one
centroid, the mean (here: the embedding) of the single matched track. -/
theorem moody_c8_witness :
    (∀ k e, (exKMeans k e).length = k) ∧
    exCatalog.filter (fun t => decide (t.track_id ∈ ["s1"])) ≠ [] ∧
    ∃ cs, (get_user_embeddings exKMeans exCatalog ["s1"]).1 = some cs ∧
      cs.length = min 5 (exCatalog.filter
        (fun t => decide (t.track_id ∈ ["s1"]))).length ∧
      ((exCatalog.filter (fun t => decide (t.track_id ∈ ["s1"]))).length = 1 →
        cs = [meanVec ((exCatalog.filter
          (fun t => decide (t.track_id ∈ ["s1"]))).map CatTrack.embedding)]) :=
  ⟨fun k e => List.length_replicate k _, by decide,
    moody_c8 exKMeans exCatalog ["s1"] (fun k e => List.length_replicate k _)
      (by decide)⟩

/-! ### Lemmas about the cumulative filter stages -/

theorem stageGo_length : ∀ (l : List (String × ℚ × ℚ)) (cum : Row → Bool),
    (stageGo cum l).length = l.length := by
  intro l
  induction l with
  | nil => intro cum; rfl
  | cons af rest ih =>
    intro cum
    rcases af with ⟨f, lo, hi⟩
    simp [stageGo, ih]

theorem stageGoLit_eq : ∀ (l : MoodFilters) (cum : Row → Bool),
    stageGoLit cum l = stageGo cum (l.filterMap pickAF) := by
  intro l
  induction l with
  | nil => intro cum; rfl
  | cons p rest ih =>
    intro cum
    rcases p with ⟨f, mn, mx⟩
    rcases mn with _ | lo
    · simpa [stageGoLit, List.filterMap_cons, pickAF] using ih cum
    · rcases mx with _ | hi
      · simpa [stageGoLit, List.filterMap_cons, pickAF] using ih cum
      · simp [stageGoLit, List.filterMap_cons, pickAF, stageGo]
        exact ih _

theorem stageMasks_eq (cols : List String) (mf : MoodFilters) :
    stageMasks cols mf = stageGo (fun _ => true) (appliedFilters cols mf) :=
  stageGoLit_eq (validEntries cols mf) (fun _ => true)

theorem stageGo_get : ∀ (l : List (String × ℚ × ℚ)) (cum : Row → Bool) (k : Nat)
    (hk : k < (stageGo cum l).length) (r : Row),
    (stageGo cum l).get ⟨k, hk⟩ r =
      (cum r && (l.take (k + 1)).all (fun af => featMask af.1 af.2.1 af.2.2 r)) := by
  intro l
  induction l with
  | nil =>
    intro cum k hk
    simp [stageGo] at hk
  | cons af rest ih =>
    intro cum k hk r
    rcases af with ⟨f, lo, hi⟩
    cases k with
    | zero => simp [stageGo, List.take_succ_cons, Bool.and_assoc]
    | succ k =>
      have hk' : k < (stageGo (fun r => cum r && featMask f lo hi r) rest).length := by
        simpa [stageGo] using hk
      have := ih (fun r => cum r && featMask f lo hi r) k hk' r
      simp only [stageGo, List.get_cons_succ]
      rw [this]
      simp [List.take_succ_cons, Bool.and_assoc]

theorem featMask_eq_true_iff (f : String) (lo hi : ℚ) (r : Row) :
    featMask f lo hi r = true ↔
      ∃ v, featVal r f = some v ∧ lo ≤ v ∧ v ≤ hi := by
  cases h : featVal r f with
  | none => simp [featMask, h]
  | some v => simp [featMask, h]

/-- C9: the stage-`k` cumulative mask accepts a row exactly when, for every
filter applied up to stage `k`, the row's feature value exists and lies
inclusively between the filter's bounds; in particular a row whose feature
value is missing (NaN) for some applied filter of the stage is rejected. -/
theorem moody_c9 (cols : List String) (mf : MoodFilters) (k : Nat)
    (hk : k < (stageMasks cols mf).length) (r : Row) :
    (((stageMasks cols mf).get ⟨k, hk⟩) r = true ↔
      ∀ af ∈ (appliedFilters cols mf).take (k + 1),
        ∃ v, featVal r af.1 = some v ∧ af.2.1 ≤ v ∧ v ≤ af.2.2) ∧
    ((∃ af ∈ (appliedFilters cols mf).take (k + 1), featVal r af.1 = none) →
      ((stageMasks cols mf).get ⟨k, hk⟩) r = false) := by
  revert hk
  rw [stageMasks_eq]
  intro hk
  have hmask := stageGo_get (appliedFilters cols mf) (fun _ => true) k hk r
  simp only [Bool.true_and] at hmask
  constructor
  · rw [hmask, List.all_eq_true]
    constructor
    · intro h af haf
      exact (featMask_eq_true_iff af.1 af.2.1 af.2.2 r).mp (h af haf)
    · intro h af haf
      exact (featMask_eq_true_iff af.1 af.2.1 af.2.2 r).mpr (h af haf)
  · rintro ⟨af, haf, hnone⟩
    rw [hmask]
    refine List.all_eq_false.mpr ⟨af, haf, ?_⟩
    simp [featMask, hnone]

/-- C9 witness: at the single stage of the example filter, the in-range row
is accepted and the stage list is non-trivial. -/
theorem moody_c9_witness :
    (0 < (stageMasks exDF1.cols exMF1).length) ∧
    ((((stageMasks exDF1.cols exMF1).get
      ⟨0, by decide⟩) exRowA = true ↔
      ∀ af ∈ (appliedFilters exDF1.cols exMF1).take 1,
        ∃ v, featVal exRowA af.1 = some v ∧ af.2.1 ≤ v ∧ v ≤ af.2.2) ∧
    ((∃ af ∈ (appliedFilters exDF1.cols exMF1).take 1,
        featVal exRowA af.1 = none) →
      (((stageMasks exDF1.cols exMF1).get ⟨0, by decide⟩) exRowA = false))) :=
  ⟨by decide, moody_c9 exDF1.cols exMF1 0 (by decide) exRowA⟩

/-! ### Lemmas about the tiered priority list -/

theorem sortDesc_perm (l : List Row) : List.Perm (sortDesc l) l :=
  (List.reverse_perm (sortAsc l)).trans (List.perm_insertionSort _ l)

theorem tiersIn_shape : ∀ (S : List (Row → Bool)) (rows t : List Row),
    t ∈ tiersIn rows S → ∃ p, t = rows.filter p := by
  intro S
  induction S with
  | nil => intro rows t ht; simp [tiersIn] at ht
  | cons m S' ih =>
    intro rows t ht
    cases S' with
    | nil =>
      simp only [tiersIn, List.mem_singleton] at ht
      exact ⟨m, ht⟩
    | cons m' rest =>
      rw [tiersIn] at ht
      rcases List.mem_cons.mp ht with h | h
      · exact ⟨_, h⟩
      · exact ih rows t h

theorem foldl_addNew_inv (rows : List Row) :
    ∀ (tiers : List (List Row)) (acc : List Row),
      (∀ x ∈ acc, x ∈ rows) → ((acc.map Row.idx).Nodup) →
      (∀ t ∈ tiers, (∀ x ∈ t, x ∈ rows) ∧ ((t.map Row.idx).Nodup)) →
      (∀ x ∈ tiers.foldl addNew acc, x ∈ rows) ∧
        (((tiers.foldl addNew acc).map Row.idx).Nodup) := by
  intro tiers
  induction tiers with
  | nil => intro acc h1 h2 _; exact ⟨h1, h2⟩
  | cons t ts ih =>
    intro acc h1 h2 ht
    have hmem_t := (ht t (List.mem_cons_self t ts)).1
    have hnd_t := (ht t (List.mem_cons_self t ts)).2
    rw [List.foldl_cons]
    apply ih
    · intro x hx
      rcases List.mem_append.mp hx with h | h
      · exact h1 x h
      · exact hmem_t x (List.mem_filter.mp h).1
    · rw [addNew, List.map_append]
      refine List.Nodup.append h2 ?_ ?_
      · exact List.Nodup.sublist (List.Sublist.map _ (List.filter_sublist _)) hnd_t
      · intro a ha hb
        obtain ⟨r, hr, hra⟩ := List.mem_map.mp hb
        have hp := (List.mem_filter.mp hr).2
        simp only [Bool.not_eq_true', decide_eq_false_iff_not] at hp
        rw [← hra] at ha
        exact hp ha
    · exact fun t' ht' => ht t' (List.mem_cons_of_mem t ht')

theorem mem_of_idx_mem (rows : List Row) (hnd : (rows.map Row.idx).Nodup)
    (W : List Row) (hW : ∀ x ∈ W, x ∈ rows) (x : Row) (hx : x ∈ rows)
    (hidx : x.idx ∈ W.map Row.idx) : x ∈ W := by
  obtain ⟨w, hw, hwx⟩ := List.mem_map.mp hidx
  have heq : w = x := List.inj_on_of_nodup_map hnd (hW w hw) hx hwx
  rw [← heq]
  exact hw

theorem tieredPotential_perm (rows : List Row) (S : List (Row → Bool))
    (hnd : (rows.map Row.idx).Nodup) :
    List.Perm (tieredPotential rows S) rows := by
  have hrows_nd : rows.Nodup := List.Nodup.of_map _ hnd
  have ht : ∀ t ∈ ((tiersIn rows S).map sortDesc).reverse,
      (∀ x ∈ t, x ∈ rows) ∧ ((t.map Row.idx).Nodup) := by
    intro t ht'
    rw [List.mem_reverse] at ht'
    obtain ⟨t₀, ht₀, rfl⟩ := List.mem_map.mp ht'
    obtain ⟨p, rfl⟩ := tiersIn_shape S rows t₀ ht₀
    constructor
    · intro x hx
      have hx' : x ∈ rows.filter p := (sortDesc_perm _).mem_iff.mp hx
      exact (List.mem_filter.mp hx').1
    · have hperm : List.Perm ((sortDesc (rows.filter p)).map Row.idx)
          ((rows.filter p).map Row.idx) := (sortDesc_perm _).map _
      exact List.Perm.nodup hperm.symm
        (List.Nodup.sublist (List.Sublist.map _ (List.filter_sublist _)) hnd)
  obtain ⟨hWmem, hWnd⟩ := foldl_addNew_inv rows
    (((tiersIn rows S).map sortDesc).reverse) [] (by simp) (by simp) ht
  have goal_eq : tieredPotential rows S =
      ((((tiersIn rows S).map sortDesc).reverse).foldl addNew []) ++
        (sortDesc rows).filter (fun r => !(decide (r.idx ∈
          (((((tiersIn rows S).map sortDesc).reverse).foldl addNew []).map
            Row.idx)))) := rfl
  rw [goal_eq]
  apply List.perm_iff_count.mpr
  intro x
  rw [List.count_append]
  by_cases hx : x ∈ rows
  · rw [List.count_eq_one_of_mem hrows_nd hx]
    by_cases hxW : x ∈ (((tiersIn rows S).map sortDesc).reverse).foldl addNew []
    · have h1 := List.count_eq_one_of_mem (List.Nodup.of_map _ hWnd) hxW
      have hpx : x.idx ∈
          ((((tiersIn rows S).map sortDesc).reverse).foldl addNew []).map Row.idx :=
        List.mem_map.mpr ⟨x, hxW, rfl⟩
      have h2 : ((sortDesc rows).filter (fun r => !(decide (r.idx ∈
          ((((tiersIn rows S).map sortDesc).reverse).foldl addNew []).map
            Row.idx)))).count x = 0 := by
        apply List.count_eq_zero_of_not_mem
        intro hmem
        have := (List.mem_filter.mp hmem).2
        simp only [Bool.not_eq_true', decide_eq_false_iff_not] at this
        exact this hpx
      omega
    · have h1 : ((((tiersIn rows S).map sortDesc).reverse).foldl addNew []).count x
          = 0 := List.count_eq_zero_of_not_mem hxW
      have hpx : x.idx ∉
          ((((tiersIn rows S).map sortDesc).reverse).foldl addNew []).map Row.idx :=
        fun h => hxW (mem_of_idx_mem rows hnd _ hWmem x hx h)
      have h2 : ((sortDesc rows).filter (fun r => !(decide (r.idx ∈
          ((((tiersIn rows S).map sortDesc).reverse).foldl addNew []).map
            Row.idx)))).count x = (sortDesc rows).count x := by
        apply List.count_filter
        simp only [Bool.not_eq_true', decide_eq_false_iff_not]
        exact hpx
      rw [h1, h2, (sortDesc_perm rows).count_eq,
        List.count_eq_one_of_mem hrows_nd hx]
  · have h0 : rows.count x = 0 := List.count_eq_zero_of_not_mem hx
    have h1 : ((((tiersIn rows S).map sortDesc).reverse).foldl addNew []).count x
        = 0 := List.count_eq_zero_of_not_mem (fun h => hx (hWmem x h))
    have h2 : ((sortDesc rows).filter (fun r => !(decide (r.idx ∈
        ((((tiersIn rows S).map sortDesc).reverse).foldl addNew []).map
          Row.idx)))).count x = 0 := by
      apply List.count_eq_zero_of_not_mem
      intro hmem
      exact hx ((sortDesc_perm rows).mem_iff.mp
        (List.mem_filter.mp hmem).1)
    omega

/-- C2: for every candidate set (no duplicate identities, as retrieval
guarantees) and every mood-filter specification, the priority-ordered list
built before deduplication is a permutation of the candidate rows: nothing
is dropped and nothing is added. -/
theorem moody_c2 (df : DF) (mf : MoodFilters)
    (hnd : (df.rows.map Row.idx).Nodup) (hne : df.rows ≠ []) :
    List.Perm (potentialRows df mf) df.rows := by
  rw [potentialRows]
  by_cases h1 : mf.isEmpty
  · rw [if_pos h1]
    exact sortDesc_perm _
  · rw [if_neg h1]
    by_cases h2 : (validEntries df.cols mf).isEmpty
    · rw [if_pos h2]
      exact sortDesc_perm _
    · rw [if_neg h2]
      exact tieredPotential_perm _ _ hnd

/-- C2 witness: on a concrete two-row candidate set with one mood filter
the priority list is a permutation of the input. -/
theorem moody_c2_witness :
    (exDF1.rows.map Row.idx).Nodup ∧ exDF1.rows ≠ [] ∧
      List.Perm (potentialRows exDF1 exMF1) exDF1.rows :=
  ⟨by decide, by decide, moody_c2 exDF1 exMF1 (by decide) (by decide)⟩

/-! ### Tier ordering -/

theorem stageGo_getLast (l : List (String × ℚ × ℚ)) (cum : Row → Bool)
    (h : stageGo cum l ≠ []) (r : Row) :
    (stageGo cum l).getLast h r =
      (cum r && l.all (fun af => featMask af.1 af.2.1 af.2.2 r)) := by
  have hlen : (stageGo cum l).length = l.length := stageGo_length l cum
  have hlpos : 0 < (stageGo cum l).length := List.length_pos.mpr h
  rw [List.getLast_eq_get, stageGo_get l cum _ _ r]
  congr 2
  have hx : (stageGo cum l).length - 1 + 1 = l.length := by omega
  rw [hx, List.take_length]

theorem tiersIn_getLast : ∀ (S : List (Row → Bool)) (rows : List Row) (h : S ≠ []),
    ∃ ts, tiersIn rows S = ts ++ [rows.filter (S.getLast h)] := by
  intro S
  induction S with
  | nil => intro rows h; exact absurd rfl h
  | cons m S' ih =>
    intro rows h
    cases S' with
    | nil => exact ⟨[], by simp [tiersIn]⟩
    | cons m' rest =>
      obtain ⟨ts, hts⟩ := ih rows (List.cons_ne_nil m' rest)
      refine ⟨rows.filter (fun r => m r && !(m' r)) :: ts, ?_⟩
      rw [tiersIn, hts, List.getLast_cons (List.cons_ne_nil m' rest)]
      simp

theorem foldl_addNew_append : ∀ (tiers : List (List Row)) (acc : List Row),
    ∃ s, tiers.foldl addNew acc = acc ++ s := by
  intro tiers
  induction tiers with
  | nil => intro acc; exact ⟨[], (List.append_nil acc).symm⟩
  | cons t ts ih =>
    intro acc
    obtain ⟨s, hs⟩ := ih (addNew acc t)
    rw [List.foldl_cons, hs, addNew]
    exact ⟨_, by rw [List.append_assoc]⟩

theorem addNew_nil (t : List Row) : addNew [] t = t := by
  simp [addNew]

/-- C1: with at least one applied mood filter, a candidate `A` satisfying
every applied filter appears strictly before a candidate `B` that satisfies
all but the last applied filter and fails the last one, in the priority
list built before deduplication. -/
theorem moody_c1 (df : DF) (mf : MoodFilters) (A B : Row)
    (hN : appliedFilters df.cols mf ≠ [])
    (hA : A ∈ df.rows) (hB : B ∈ df.rows)
    (hAall : satAll (appliedFilters df.cols mf) A = true)
    (hBpre : satAll ((appliedFilters df.cols mf).take
      ((appliedFilters df.cols mf).length - 1)) B = true)
    (hBlast : featMask ((appliedFilters df.cols mf).getLast hN).1
      ((appliedFilters df.cols mf).getLast hN).2.1
      ((appliedFilters df.cols mf).getLast hN).2.2 B = false) :
    (potentialRows df mf).indexOf A < (potentialRows df mf).indexOf B := by
  have hval : validEntries df.cols mf ≠ [] := by
    intro h0
    apply hN
    rw [appliedFilters, h0]
    rfl
  have hmf : ¬mf.isEmpty = true := by
    intro h0
    apply hval
    rw [validEntries, List.isEmpty_iff.mp h0]
    rfl
  have hve : ¬(validEntries df.cols mf).isEmpty = true := by
    intro h0
    exact hval (List.isEmpty_iff.mp h0)
  rw [potentialRows, if_neg hmf, if_neg hve, stageMasks_eq]
  have hSlen : (stageGo (fun _ => true) (appliedFilters df.cols mf)).length =
      (appliedFilters df.cols mf).length :=
    stageGo_length (appliedFilters df.cols mf) (fun _ => true)
  have hSne : stageGo (fun _ => true) (appliedFilters df.cols mf) ≠ [] := by
    intro h0
    apply hN
    rw [h0] at hSlen
    exact (List.length_eq_zero.mp hSlen.symm)
  have hlast : ∀ r, (stageGo (fun _ => true)
      (appliedFilters df.cols mf)).getLast hSne r =
      satAll (appliedFilters df.cols mf) r := by
    intro r
    have := stageGo_getLast (appliedFilters df.cols mf) (fun _ => true) hSne r
    simpa [satAll] using this
  obtain ⟨ts, hts⟩ := tiersIn_getLast
    (stageGo (fun _ => true) (appliedFilters df.cols mf)) df.rows hSne
  have h1 : ((tiersIn df.rows (stageGo (fun _ => true)
      (appliedFilters df.cols mf))).map sortDesc).reverse
      = sortDesc (df.rows.filter ((stageGo (fun _ => true)
          (appliedFilters df.cols mf)).getLast hSne)) :: ((ts.map sortDesc).reverse) := by
    rw [hts, List.map_append, List.reverse_append]
    simp
  obtain ⟨s, hs⟩ := foldl_addNew_append ((ts.map sortDesc).reverse)
    (sortDesc (df.rows.filter ((stageGo (fun _ => true)
      (appliedFilters df.cols mf)).getLast hSne)))
  have hW : ((((tiersIn df.rows (stageGo (fun _ => true)
      (appliedFilters df.cols mf))).map sortDesc).reverse).foldl addNew []) =
      sortDesc (df.rows.filter ((stageGo (fun _ => true)
        (appliedFilters df.cols mf)).getLast hSne)) ++ s := by
    rw [h1, List.foldl_cons, addNew_nil]
    exact hs
  have hsplit : tieredPotential df.rows (stageGo (fun _ => true)
      (appliedFilters df.cols mf)) =
      sortDesc (df.rows.filter ((stageGo (fun _ => true)
        (appliedFilters df.cols mf)).getLast hSne)) ++
      (s ++ (sortDesc df.rows).filter (fun r => !(decide (r.idx ∈
        ((sortDesc (df.rows.filter ((stageGo (fun _ => true)
          (appliedFilters df.cols mf)).getLast hSne)) ++ s).map Row.idx))))) := by
    have hdef : tieredPotential df.rows (stageGo (fun _ => true)
        (appliedFilters df.cols mf)) =
        ((((tiersIn df.rows (stageGo (fun _ => true)
          (appliedFilters df.cols mf))).map sortDesc).reverse).foldl addNew []) ++
          (sortDesc df.rows).filter (fun r => !(decide (r.idx ∈
            (((((tiersIn df.rows (stageGo (fun _ => true)
              (appliedFilters df.cols mf))).map sortDesc).reverse).foldl
                addNew []).map Row.idx)))) := rfl
    rw [hdef, hW, List.append_assoc]
  have hAmem : A ∈ sortDesc (df.rows.filter ((stageGo (fun _ => true)
      (appliedFilters df.cols mf)).getLast hSne)) := by
    apply (sortDesc_perm _).mem_iff.mpr
    refine List.mem_filter.mpr ⟨hA, ?_⟩
    rw [hlast A]
    exact hAall
  have hBnot : B ∉ sortDesc (df.rows.filter ((stageGo (fun _ => true)
      (appliedFilters df.cols mf)).getLast hSne)) := by
    intro hmem
    have hsat := (List.mem_filter.mp ((sortDesc_perm _).mem_iff.mp hmem)).2
    rw [hlast B] at hsat
    have hfalse : satAll (appliedFilters df.cols mf) B = false :=
      List.all_eq_false.mpr ⟨(appliedFilters df.cols mf).getLast hN,
        List.getLast_mem hN, by simp [hBlast]⟩
    rw [hfalse] at hsat
    exact Bool.false_ne_true hsat
  rw [hsplit, List.indexOf_append_of_mem hAmem,
    List.indexOf_append_of_not_mem hBnot]
  exact Nat.lt_of_lt_of_le (List.indexOf_lt_length.mpr hAmem)
    (Nat.le_add_right _ _)

/-- C1 witness: with the single example filter, the fully-satisfying row
precedes the failing row in the priority list. -/
theorem moody_c1_witness :
    appliedFilters exDF1.cols exMF1 ≠ [] ∧
    satAll (appliedFilters exDF1.cols exMF1) exRowA = true ∧
    featMask ((appliedFilters exDF1.cols exMF1).getLast (by decide)).1
      ((appliedFilters exDF1.cols exMF1).getLast (by decide)).2.1
      ((appliedFilters exDF1.cols exMF1).getLast (by decide)).2.2 exRowB = false ∧
    (potentialRows exDF1 exMF1).indexOf exRowA <
      (potentialRows exDF1 exMF1).indexOf exRowB :=
  ⟨by decide, by decide, by decide,
    moody_c1 exDF1 exMF1 exRowA exRowB (by decide) (by decide) (by decide)
      (by decide) (by decide) (by decide)⟩

/-! ### Tie order in the descending similarity sort -/

theorem pair_sublist_of_get (l : List Row) (i j : Nat) (hi : i < l.length)
    (hj : j < l.length) (hij : i < j) :
    [l.get ⟨i, hi⟩, l.get ⟨j, hj⟩].Sublist l := by
  have hmem : l.get ⟨j, hj⟩ ∈ l.drop (i + 1) := by
    have hjlt : j - (i + 1) < (l.drop (i + 1)).length := by
      rw [List.length_drop]
      omega
    refine List.mem_iff_getElem.mpr ⟨j - (i + 1), hjlt, ?_⟩
    rw [List.getElem_drop]
    simp only [List.get_eq_getElem]
    congr 1
    omega
  have h1 : [l.get ⟨i, hi⟩, l.get ⟨j, hj⟩].Sublist
      (l.get ⟨i, hi⟩ :: l.drop (i + 1)) :=
    (List.singleton_sublist.mpr hmem).cons₂ _
  have h2 : (l.get ⟨i, hi⟩ :: l.drop (i + 1)) = l.drop i := by
    rw [List.get_eq_getElem]
    exact List.cons_getElem_drop_succ
  rw [h2] at h1
  exact h1.trans (List.drop_sublist i l)

theorem indexOf_lt_of_pair_sublist : ∀ (L : List Row) (x y : Row),
    L.Nodup → [x, y].Sublist L → L.indexOf x < L.indexOf y := by
  intro L
  induction L with
  | nil =>
    intro x y _ h
    simp at h
  | cons a t ih =>
    intro x y hnd h
    cases h with
    | cons _ h' =>
      have hx : x ∈ t := h'.subset (by simp)
      have hy : y ∈ t := h'.subset (by simp)
      have hxa : x ≠ a := fun he => (List.nodup_cons.mp hnd).1 (he ▸ hx)
      have hya : y ≠ a := fun he => (List.nodup_cons.mp hnd).1 (he ▸ hy)
      rw [List.indexOf_cons_ne _ (fun h'' => hxa h''.symm),
        List.indexOf_cons_ne _ (fun h'' => hya h''.symm)]
      exact Nat.succ_lt_succ (ih x y (List.nodup_cons.mp hnd).2 h')
    | cons₂ _ h' =>
      have hy : y ∈ t := List.singleton_sublist.mp h'
      have hya : y ≠ a := fun he => (List.nodup_cons.mp hnd).1 (he ▸ hy)
      rw [List.indexOf_cons_self, List.indexOf_cons_ne _ (fun h'' => hya h''.symm)]
      exact Nat.succ_pos _

/-- C6 counterexample: two candidates with equal similarity scores do NOT
keep their retrieval order in the no-filter path: the descending sort
reverses the stable ascending sort, so the later-retrieved row comes out
first. -/
theorem moody_c6_counterexample :
    exDF6.rows = [exRow0, exRow1] ∧
    exRow0.score = exRow1.score ∧
    potentialRows exDF6 [] = [exRow1, exRow0] ∧
    ¬((potentialRows exDF6 []).indexOf exRow0 <
      (potentialRows exDF6 []).indexOf exRow1) := by
  decide

/-- C6 (amended): in the no-filter path (and hence in the remainder fill,
which filters the same sorted list), candidates with equal similarity
scores appear in *reversed* retrieval order: pandas implements the
descending sort as a stable ascending sort followed by a reversal of the
indexer, so the tie-breaker is reverse retrieval order, not retrieval
order. -/
theorem moody_c6_amended (df : DF) (i j : Nat) (hi : i < df.rows.length)
    (hj : j < df.rows.length) (hij : i < j) (hnd : df.rows.Nodup)
    (hs : (df.rows.get ⟨i, hi⟩).score = (df.rows.get ⟨j, hj⟩).score) :
    (potentialRows df []).indexOf (df.rows.get ⟨j, hj⟩) <
      (potentialRows df []).indexOf (df.rows.get ⟨i, hi⟩) := by
  have hbranch : potentialRows df [] = sortDesc df.rows := rfl
  rw [hbranch]
  have hab : [df.rows.get ⟨i, hi⟩, df.rows.get ⟨j, hj⟩].Sublist df.rows :=
    pair_sublist_of_get df.rows i j hi hj hij
  have hstab : [df.rows.get ⟨i, hi⟩, df.rows.get ⟨j, hj⟩].Sublist
      (sortAsc df.rows) :=
    List.pair_sublist_insertionSort (le_of_eq hs) hab
  have hrev : [df.rows.get ⟨j, hj⟩, df.rows.get ⟨i, hi⟩].Sublist
      (sortDesc df.rows) := by
    have := hstab.reverse
    simpa [sortDesc] using this
  have hnd' : (sortDesc df.rows).Nodup := (sortDesc_perm df.rows).symm.nodup hnd
  exact indexOf_lt_of_pair_sublist _ _ _ hnd' hrev

/-- C6 witness: the amended tie rule evaluated on the concrete equal-score
pair. -/
theorem moody_c6_witness :
    (0 : Nat) < 1 ∧ exDF6.rows.Nodup ∧
    (exDF6.rows.get ⟨0, by decide⟩).score = (exDF6.rows.get ⟨1, by decide⟩).score ∧
    (potentialRows exDF6 []).indexOf (exDF6.rows.get ⟨1, by decide⟩) <
      (potentialRows exDF6 []).indexOf (exDF6.rows.get ⟨0, by decide⟩) :=
  ⟨by decide, by decide, by decide,
    moody_c6_amended exDF6 0 1 (by decide) (by decide) (by decide) (by decide)
      (by decide)⟩

/-! ### Seed exclusion and result length of the `/recommend` wiring -/

set_option maxRecDepth 40000 in
/-- C4 counterexample: with 101 distinct candidates and a seed that
survives deduplication inside the quota, the returned list has 99 ids,
not `min(quota, distinct_after_dedup) = 100`: the quota is applied before
seed exclusion. -/
theorem moody_c4_counterexample :
    (recommendFromCandidates exNorm exRatio exKey ex101 [] ["t100"]).length = 99 ∧
    min FINAL_RECOMMENDATION_COUNT
      (dedupNoQuota exNorm exRatio exKey (potentialRows ex101 [])).length = 100 ∧
    (99 : Nat) ≠ 100 := by
  exact ⟨by decide, by decide, by decide⟩

/-- C4 (amended): for candidates with the required columns and an empty
mood-filter specification, the returned id list excludes every seed id,
and its length plus the number of seed ids inside the quota-bounded
deduplicated list equals `min(quota, distinct_after_dedup)` — i.e. the
quota of 100 is applied by the deduplicator before seed exclusion, so each
seed id surviving deduplication within the quota shrinks the result below
`min(quota, distinct_after_dedup)`. -/
theorem moody_c4_amended (normName : String → String)
    (ratio : String → String → Nat) (artistKey : String → List String)
    (df : DF) (seeds : List String) (hEmb : df.hasEmb = true)
    (hTn : "track_name" ∈ df.cols) (hAr : "artists" ∈ df.cols) :
    (∀ x ∈ recommendFromCandidates normName ratio artistKey df [] seeds,
      x ∉ seeds) ∧
    (recommendFromCandidates normName ratio artistKey df [] seeds).length +
      ((dedupQuota normName ratio artistKey (potentialRows df [])).filter
        (fun r => decide (r.track_id ∈ seeds))).length =
      min FINAL_RECOMMENDATION_COUNT
        (dedupNoQuota normName ratio artistKey (potentialRows df [])).length := by
  have hmood : mood_aware_filter normName ratio artistKey df [] =
      dedupQuota normName ratio artistKey (potentialRows df []) := by
    by_cases hrows : df.rows.isEmpty
    · have h0 : df.rows = [] := List.isEmpty_iff.mp hrows
      rw [mood_aware_filter, if_pos hrows, h0]
      simp [dedupQuota, dedupGo, potentialRows, sortDesc, sortAsc, h0,
        List.insertionSort]
    · simp [mood_aware_filter, hrows, hEmb, hTn, hAr]
  constructor
  · intro x hx
    rw [recommendFromCandidates] at hx
    obtain ⟨r, hr, hrx⟩ := List.mem_map.mp hx
    have := (List.mem_filter.mp hr).2
    simp only [decide_eq_true_eq] at this
    rw [← hrx]
    exact this
  · have hsplit : ((mood_aware_filter normName ratio artistKey df []).filter
        (fun r => decide (r.track_id ∉ seeds))).length +
        ((mood_aware_filter normName ratio artistKey df []).filter
          (fun r => decide (r.track_id ∈ seeds))).length =
        (mood_aware_filter normName ratio artistKey df []).length := by
      have hp := List.filter_append_perm
        (fun r => decide (r.track_id ∈ seeds))
        (mood_aware_filter normName ratio artistKey df [])
      have hlen := hp.length_eq
      rw [List.length_append] at hlen
      have hcong : (mood_aware_filter normName ratio artistKey df []).filter
          (fun r => !(decide (r.track_id ∈ seeds))) =
          (mood_aware_filter normName ratio artistKey df []).filter
            (fun r => decide (r.track_id ∉ seeds)) := by
        apply List.filter_congr
        intro x _
        simp [decide_not]
      rw [hcong] at hlen
      omega
    rw [hmood] at hsplit
    rw [recommendFromCandidates, List.length_map, hmood, hsplit,
      dedupQuota_eq_take, List.length_take]

/-- C4 witness: the amended statement evaluated on a concrete two-row
candidate set with one seed. -/
theorem moody_c4_witness :
    exDF6.hasEmb = true ∧ "track_name" ∈ exDF6.cols ∧ "artists" ∈ exDF6.cols ∧
    ((∀ x ∈ recommendFromCandidates exNorm exRatio exKey exDF6 [] ["t0"],
      x ∉ ["t0"]) ∧
    (recommendFromCandidates exNorm exRatio exKey exDF6 [] ["t0"]).length +
      ((dedupQuota exNorm exRatio exKey (potentialRows exDF6 [])).filter
        (fun r => decide (r.track_id ∈ ["t0"]))).length =
      min FINAL_RECOMMENDATION_COUNT
        (dedupNoQuota exNorm exRatio exKey (potentialRows exDF6 [])).length) :=
  ⟨rfl, by decide, by decide,
    moody_c4_amended exNorm exRatio exKey exDF6 ["t0"] rfl (by decide) (by decide)⟩
